import Mathlib

/-!
Verification of the `interleave` round-robin merging iterator.

The Rust source (`src/lib.rs`) defines

  pub struct MultiIter<T> { empty: bool, index: usize, items: IterList<T> }

where `IterList<T>` is a vector of boxed iterators.  We embed each producer
as the list of elements it has yet to yield: pulling from a producer is
unconsing its list, and an exhausted producer is the empty list.  The body
of `Iterator::next` for `MultiIter` is an unbounded `loop`; we embed it as
the fueled function `nextAux`, prove that fuel `2 * (N + 1)` always
suffices (`nextAux_isSome`), and define `MultiIter.next` by running
`nextAux` with that fuel.
-/

namespace Interleave

/-- State of the interleave iterator, mirroring the Rust struct `MultiIter`:
`empty` is the flag recording that the pass so far yielded nothing,
`index` is the cursor into the collection, `items` is the collection of
producers, each embedded as its remaining list of elements. -/
structure MultiIter (α : Type u) where
  empty : Bool
  index : Nat
  items : List (List α)
deriving DecidableEq

/-- Constructor `MultiIter::new`: cursor 0, flag false, the given producers. -/
def MultiIter.new (items : List (List α)) : MultiIter α :=
  ⟨false, 0, items⟩

/-- The `Default::default` instance for `MultiIter`: cursor 0, flag false, no producers. -/
def MultiIter.default : MultiIter α :=
  ⟨false, 0, []⟩

/-- Method `MultiIter::push`: append one producer at the end of the collection. -/
def MultiIter.push (s : MultiIter α) (item : List α) : MultiIter α :=
  { s with items := s.items ++ [item] }

/-- One run of the `loop` in the Rust `next`, with explicit fuel: each
recursive call is one loop iteration.  `none` means the fuel ran out;
`some (o, s')` means the loop returned `o` leaving state `s'`.
The three branches are exactly the Rust ones:
`self.items.get_mut(self.index)` succeeding with a yielding iterator,
succeeding with an exhausted iterator, or failing (cursor past the end). -/
def nextAux : Nat → MultiIter α → Option (Option α × MultiIter α)
  | 0, _ => none
  | fuel + 1, s =>
    match s.items[s.index]? with
    | some (v :: rest) =>
      some (some v, ⟨false, s.index + 1, s.items.set s.index rest⟩)
    | some [] => nextAux fuel ⟨s.empty, s.index + 1, s.items⟩
    | none =>
      if s.empty then
        some (none, ⟨s.empty, 0, s.items⟩)
      else
        nextAux fuel ⟨true, 0, s.items⟩

/-- Bound on the number of loop iterations still possible from a state. -/
def loopMeasure (s : MultiIter α) : Nat :=
  (s.items.length - s.index) + (if s.empty then 1 else s.items.length + 2)

theorem nextAux_isSome_of_le :
    ∀ (fuel : Nat) (s : MultiIter α), loopMeasure s ≤ fuel →
      (nextAux fuel s).isSome := by
  intro fuel
  induction fuel with
  | zero =>
    intro s h
    exfalso
    unfold loopMeasure at h
    split at h <;> omega
  | succ n ih =>
    rintro ⟨e, i, items⟩ h
    rw [nextAux]
    cases hg : items[i]? with
    | some l =>
      have hi : i < items.length := by
        by_contra hc
        rw [List.getElem?_eq_none (by omega)] at hg
        exact Option.noConfusion hg
      cases l with
      | nil =>
        simp only [hg]
        apply ih
        unfold loopMeasure at h ⊢
        simp only at h ⊢
        split at h <;> split <;> omega
      | cons v rest => simp [hg]
    | none =>
      have hi : items.length ≤ i := by
        by_contra hc
        rw [List.getElem?_eq_getElem (by omega)] at hg
        exact Option.noConfusion hg
      simp only [hg]
      cases e with
      | true => simp
      | false =>
        simp only [Bool.false_eq_true, if_false]
        apply ih
        unfold loopMeasure at h ⊢
        simp only [Bool.false_eq_true, if_false, if_true] at h ⊢
        omega

theorem nextAux_isSome (s : MultiIter α) :
    (nextAux (2 * (s.items.length + 1)) s).isSome :=
  nextAux_isSome_of_le _ s (by unfold loopMeasure; split <;> omega)

/-- Method `MultiIter::next` (the `Iterator` implementation): run the loop.  The
fuel `2 * (N + 1)` is enough by `nextAux_isSome`, so this is exactly the
value the unbounded Rust loop returns. -/
def MultiIter.next (s : MultiIter α) : Option α × MultiIter α :=
  (nextAux (2 * (s.items.length + 1)) s).get (nextAux_isSome s)

/-- Outputs and final state of `k` successive calls to `next`. -/
def pulls : Nat → MultiIter α → List (Option α) × MultiIter α
  | 0, s => ([], s)
  | k + 1, s =>
    let r := MultiIter.next s
    let rest := pulls k r.2
    (r.1 :: rest.1, rest.2)

theorem nextAux_mono :
    ∀ (fuel : Nat) (s : MultiIter α) (r : Option α × MultiIter α),
      nextAux fuel s = some r → nextAux (fuel + 1) s = some r := by
  intro fuel
  induction fuel with
  | zero => intro s r h; exact Option.noConfusion h
  | succ n ih =>
    rintro ⟨e, i, items⟩ r h
    rw [nextAux] at h ⊢
    cases hg : items[i]? with
    | some l =>
      cases l with
      | nil =>
        simp only [hg] at h ⊢
        exact ih _ _ h
      | cons v rest =>
        simp only [hg] at h ⊢
        exact h
    | none =>
      simp only [hg] at h ⊢
      cases e with
      | true => simpa using h
      | false =>
        simp only [Bool.false_eq_true, if_false] at h ⊢
        exact ih _ _ h

theorem nextAux_le {f₁ f₂ : Nat} (s : MultiIter α) (r : Option α × MultiIter α)
    (hle : f₁ ≤ f₂) (h : nextAux f₁ s = some r) : nextAux f₂ s = some r := by
  induction f₂ with
  | zero =>
    have : f₁ = 0 := Nat.le_zero.mp hle
    subst this
    exact h
  | succ n ih =>
    rcases Nat.lt_or_ge f₁ (n + 1) with hlt | hge
    · exact nextAux_mono n s r (ih (by omega))
    · have : f₁ = n + 1 := by omega
      subst this
      exact h

theorem next_eq_of_aux (fuel : Nat) (s : MultiIter α) (r : Option α × MultiIter α)
    (h : nextAux fuel s = some r) : MultiIter.next s = r := by
  unfold MultiIter.next
  rcases Nat.le_total fuel (2 * (s.items.length + 1)) with hle | hle
  · have h2 : nextAux (2 * (s.items.length + 1)) s = some r := nextAux_le s r hle h
    have h3 := Option.some_get (nextAux_isSome s)
    conv at h3 => rhs; rw [h2]
    exact Option.some_inj.mp h3
  · have h1 : nextAux (2 * (s.items.length + 1)) s
        = some ((nextAux (2 * (s.items.length + 1)) s).get (nextAux_isSome s)) :=
      (Option.some_get (nextAux_isSome s)).symm
    have h2 := nextAux_le s _ hle h1
    rw [h] at h2
    exact (Option.some_inj.mp h2).symm

/-- If one loop iteration from `s` always continues as `s'`, the two states
return the same result. -/
theorem next_congr_step (s s' : MultiIter α)
    (h : ∀ fuel, nextAux (fuel + 1) s = nextAux fuel s') :
    MultiIter.next s = MultiIter.next s' := by
  have h1 : (nextAux (loopMeasure s') s').isSome := nextAux_isSome_of_le _ s' le_rfl
  obtain ⟨r, hr⟩ := Option.isSome_iff_exists.mp h1
  exact (next_eq_of_aux _ _ _ ((h _).trans hr)).trans (next_eq_of_aux _ _ _ hr).symm

/-- Yield step: the cursor points at a producer with a value to give. -/
theorem next_yield (s : MultiIter α) (v : α) (rest : List α)
    (h : s.items[s.index]? = some (v :: rest)) :
    MultiIter.next s = (some v, ⟨false, s.index + 1, s.items.set s.index rest⟩) :=
  next_eq_of_aux 1 s _ (by rw [nextAux]; simp [h])

/-- Skip step: the cursor points at an exhausted producer. -/
theorem next_skip (s : MultiIter α) (h : s.items[s.index]? = some []) :
    MultiIter.next s = MultiIter.next ⟨s.empty, s.index + 1, s.items⟩ :=
  next_congr_step _ _ (fun fuel => by rw [nextAux]; simp [h])

/-- Wrap step, flag clear: cursor past the end, begin a fresh pass. -/
theorem next_wrap (s : MultiIter α) (h : s.items[s.index]? = none)
    (he : s.empty = false) :
    MultiIter.next s = MultiIter.next ⟨true, 0, s.items⟩ :=
  next_congr_step _ _ (fun fuel => by rw [nextAux]; simp [h, he])

/-- Wrap step, flag set: cursor past the end after a fruitless pass. -/
theorem next_wrap_none (s : MultiIter α) (h : s.items[s.index]? = none)
    (he : s.empty = true) :
    MultiIter.next s = (none, ⟨true, 0, s.items⟩) := by
  have := next_eq_of_aux 1 s (none, ⟨s.empty, 0, s.items⟩)
    (by rw [nextAux]; simp [h, he])
  rwa [he] at this

/-! Structural facts about a single call to `next`, proved by induction on
the fuel of `nextAux`. -/

/-- A call that returns `none` ends in state `⟨true, 0, s.items⟩`:
the flag is set, the cursor was reset, and no producer lost an element. -/
theorem nextAux_none_state :
    ∀ (fuel : Nat) (s : MultiIter α) (r : Option α × MultiIter α),
      nextAux fuel s = some r → r.1 = none → r.2 = ⟨true, 0, s.items⟩ := by
  intro fuel
  induction fuel with
  | zero => intro s r h; exact Option.noConfusion h
  | succ n ih =>
    rintro ⟨e, i, items⟩ r h hn
    rw [nextAux] at h
    cases hg : items[i]? with
    | some l =>
      cases l with
      | nil =>
        simp only [hg] at h
        exact ih ⟨e, i + 1, items⟩ r h hn
      | cons v rest =>
        simp only [hg] at h
        rw [← Option.some_inj.mp h] at hn
        exact Option.noConfusion hn
    | none =>
      simp only [hg] at h
      cases e with
      | true =>
        simp only [if_true] at h
        rw [← Option.some_inj.mp h]
      | false =>
        simp only [Bool.false_eq_true, if_false] at h
        exact ih ⟨true, 0, items⟩ r h hn

/-- A call that returns a value clears the flag in the final state. -/
theorem nextAux_some_empty :
    ∀ (fuel : Nat) (s : MultiIter α) (r : Option α × MultiIter α),
      nextAux fuel s = some r → ∀ v, r.1 = some v → r.2.empty = false := by
  intro fuel
  induction fuel with
  | zero => intro s r h; exact Option.noConfusion h
  | succ n ih =>
    rintro ⟨e, i, items⟩ r h v hv
    rw [nextAux] at h
    cases hg : items[i]? with
    | some l =>
      cases l with
      | nil =>
        simp only [hg] at h
        exact ih ⟨e, i + 1, items⟩ r h v hv
      | cons w rest =>
        simp only [hg] at h
        rw [← Option.some_inj.mp h]
    | none =>
      simp only [hg] at h
      cases e with
      | true =>
        simp only [if_true] at h
        rw [← Option.some_inj.mp h] at hv
        exact Option.noConfusion hv
      | false =>
        simp only [Bool.false_eq_true, if_false] at h
        exact ih ⟨true, 0, items⟩ r h v hv

/-- The cursor of the state a call leaves behind is always a valid bound:
at most the number of producers. -/
theorem nextAux_index_le :
    ∀ (fuel : Nat) (s : MultiIter α) (r : Option α × MultiIter α),
      nextAux fuel s = some r → r.2.index ≤ r.2.items.length := by
  intro fuel
  induction fuel with
  | zero => intro s r h; exact Option.noConfusion h
  | succ n ih =>
    rintro ⟨e, i, items⟩ r h
    rw [nextAux] at h
    cases hg : items[i]? with
    | some l =>
      have hi : i < items.length := by
        by_contra hc
        rw [List.getElem?_eq_none (by omega)] at hg
        exact Option.noConfusion hg
      cases l with
      | nil =>
        simp only [hg] at h
        exact ih ⟨e, i + 1, items⟩ r h
      | cons v rest =>
        simp only [hg] at h
        rw [← Option.some_inj.mp h]
        simpa using hi
    | none =>
      simp only [hg] at h
      cases e with
      | true =>
        simp only [if_true] at h
        rw [← Option.some_inj.mp h]
        exact Nat.zero_le _
      | false =>
        simp only [Bool.false_eq_true, if_false] at h
        exact ih ⟨true, 0, items⟩ r h

/-- A call that returns a value consumed exactly one element: the head of
some producer, everything else untouched. -/
theorem nextAux_some_consumes :
    ∀ (fuel : Nat) (s : MultiIter α) (r : Option α × MultiIter α),
      nextAux fuel s = some r → ∀ v, r.1 = some v →
        ∃ i rest, s.items[i]? = some (v :: rest) ∧
          r.2.items = s.items.set i rest := by
  intro fuel
  induction fuel with
  | zero => intro s r h; exact Option.noConfusion h
  | succ n ih =>
    rintro ⟨e, i, items⟩ r h v hv
    rw [nextAux] at h
    cases hg : items[i]? with
    | some l =>
      cases l with
      | nil =>
        simp only [hg] at h
        exact ih ⟨e, i + 1, items⟩ r h v hv
      | cons w rest =>
        simp only [hg] at h
        have h' := Option.some_inj.mp h
        rw [← h'] at hv
        have hw : w = v := Option.some_inj.mp hv
        subst hw
        exact ⟨i, rest, hg, by rw [← h']⟩
    | none =>
      simp only [hg] at h
      cases e with
      | true =>
        simp only [if_true] at h
        rw [← Option.some_inj.mp h] at hv
        exact Option.noConfusion hv
      | false =>
        simp only [Bool.false_eq_true, if_false] at h
        exact ih ⟨true, 0, items⟩ r h v hv

/-- Forward direction of the termination characterisation: returning
`none` means the rest of the current pass was all exhausted producers, and
either the flag was already set or the whole collection is exhausted. -/
theorem nextAux_none_char :
    ∀ (fuel : Nat) (s : MultiIter α) (s' : MultiIter α),
      nextAux fuel s = some (none, s') →
        (∀ l ∈ s.items.drop s.index, l = []) ∧
          (s.empty = true ∨ ∀ l ∈ s.items, l = []) := by
  intro fuel
  induction fuel with
  | zero => intro s s' h; exact Option.noConfusion h
  | succ n ih =>
    rintro ⟨e, i, items⟩ s' h
    rw [nextAux] at h
    cases hg : items[i]? with
    | some l =>
      have hi : i < items.length := by
        by_contra hc
        rw [List.getElem?_eq_none (by omega)] at hg
        exact Option.noConfusion hg
      have hdrop : items.drop i = items[i] :: items.drop (i + 1) :=
        List.drop_eq_getElem_cons hi
      cases l with
      | nil =>
        have hnil : items[i] = [] := by
          have := List.getElem?_eq_getElem hi
          rw [hg] at this
          exact (Option.some_inj.mp this).symm
        simp only [hg] at h
        obtain ⟨h1, h2⟩ := ih ⟨e, i + 1, items⟩ s' h
        refine ⟨?_, h2⟩
        intro l hl
        rw [hdrop] at hl
        rcases List.mem_cons.mp hl with hl | hl
        · rw [hl, hnil]
        · exact h1 l hl
      | cons v rest =>
        simp only [hg] at h
        simp at h
    | none =>
      have hi : items.length ≤ i := by
        by_contra hc
        rw [List.getElem?_eq_getElem (by omega)] at hg
        exact Option.noConfusion hg
      simp only [hg] at h
      have hdrop : items.drop i = [] := List.drop_eq_nil_of_le hi
      cases e with
      | true =>
        refine ⟨?_, Or.inl rfl⟩
        intro l hl
        rw [hdrop] at hl
        exact absurd hl (List.not_mem_nil l)
      | false =>
        simp only [Bool.false_eq_true, if_false] at h
        obtain ⟨h1, _⟩ := ih ⟨true, 0, items⟩ s' h
        simp only [List.drop_zero] at h1
        refine ⟨?_, Or.inr h1⟩
        intro l hl
        exact h1 l (List.mem_of_mem_drop hl)

theorem nextAux_next (s : MultiIter α) :
    nextAux (2 * (s.items.length + 1)) s = some (MultiIter.next s) :=
  (Option.some_get (nextAux_isSome s)).symm

/-- With the flag set, a cursor standing on nothing but exhausted producers
runs to the wrap and returns `none`. -/
theorem next_all_empty_t :
    ∀ (n i : Nat) (items : List (List α)),
      (∀ l ∈ items.drop i, l = []) → items.length ≤ i + n →
        MultiIter.next ⟨true, i, items⟩ = (none, ⟨true, 0, items⟩) := by
  intro n
  induction n with
  | zero =>
    intro i items _ hlen
    have hnone : items[i]? = none := List.getElem?_eq_none (by omega)
    exact next_wrap_none ⟨true, i, items⟩ hnone rfl
  | succ n ih =>
    intro i items hall hlen
    by_cases hi : i < items.length
    · have hdrop : items.drop i = items[i] :: items.drop (i + 1) :=
        List.drop_eq_getElem_cons hi
      have hnil : items[i] = [] := hall _ (hdrop ▸ List.mem_cons_self _ _)
      have hget : items[i]? = some [] := by
        rw [List.getElem?_eq_getElem hi, hnil]
      rw [next_skip ⟨true, i, items⟩ hget]
      exact ih (i + 1) items
        (fun l hl => hall l (hdrop ▸ List.mem_cons_of_mem _ hl)) (by omega)
    · have hnone : items[i]? = none := List.getElem?_eq_none (by omega)
      exact next_wrap_none ⟨true, i, items⟩ hnone rfl

/-- With the flag clear and every producer exhausted, a call runs one wrap
plus one fruitless pass and returns `none`. -/
theorem next_all_empty_f :
    ∀ (n i : Nat) (items : List (List α)),
      (∀ l ∈ items, l = []) → items.length ≤ i + n →
        MultiIter.next ⟨false, i, items⟩ = (none, ⟨true, 0, items⟩) := by
  intro n
  induction n with
  | zero =>
    intro i items hall hlen
    have hnone : items[i]? = none := List.getElem?_eq_none (by omega)
    rw [next_wrap ⟨false, i, items⟩ hnone rfl]
    exact next_all_empty_t items.length 0 items
      (fun l hl => hall l (List.mem_of_mem_drop hl)) (by omega)
  | succ n ih =>
    intro i items hall hlen
    by_cases hi : i < items.length
    · have hget : items[i]? = some [] := by
        rw [List.getElem?_eq_getElem hi, hall _ (List.getElem_mem hi)]
      rw [next_skip ⟨false, i, items⟩ hget]
      exact ih (i + 1) items hall (by omega)
    · have hnone : items[i]? = none := List.getElem?_eq_none (by omega)
      rw [next_wrap ⟨false, i, items⟩ hnone rfl]
      exact next_all_empty_t items.length 0 items
        (fun l hl => hall l (List.mem_of_mem_drop hl)) (by omega)

/-- A cursor standing before a tail of exhausted producers followed by one
freshly appended live producer reaches it and yields its first element. -/
theorem next_over_empties_concat :
    ∀ (n : Nat) (es : List (List α)) (e : Bool) (i : Nat) (v : α) (vs : List α),
      (∀ l ∈ es, l = []) → es.length ≤ i + n → i ≤ es.length →
        (MultiIter.next ⟨e, i, es ++ [v :: vs]⟩).1 = some v := by
  intro n
  induction n with
  | zero =>
    intro es e i v vs _ hlen hle
    have hi : i = es.length := by omega
    subst hi
    have hget : (es ++ [v :: vs])[es.length]? = some (v :: vs) :=
      List.getElem?_concat_length es (v :: vs)
    rw [next_yield ⟨e, es.length, es ++ [v :: vs]⟩ v vs hget]
  | succ n ih =>
    intro es e i v vs hall hlen hle
    by_cases hi : i < es.length
    · have hget : (es ++ [v :: vs])[i]? = some [] := by
        rw [List.getElem?_append_left hi, List.getElem?_eq_getElem hi,
          hall _ (List.getElem_mem hi)]
      rw [next_skip ⟨e, i, es ++ [v :: vs]⟩ hget]
      exact ih es e (i + 1) v vs hall (by omega) (by omega)
    · have hieq : i = es.length := by omega
      subst hieq
      have hget : (es ++ [v :: vs])[es.length]? = some (v :: vs) :=
        List.getElem?_concat_length es (v :: vs)
      rw [next_yield ⟨e, es.length, es ++ [v :: vs]⟩ v vs hget]

/-- A state on which `next` is the identity keeps producing `none`. -/
theorem pulls_fixed :
    ∀ (k : Nat) (s : MultiIter α), MultiIter.next s = (none, s) →
      (pulls k s).1 = List.replicate k none := by
  intro k
  induction k with
  | zero => intro s _; rfl
  | succ n ih =>
    intro s h
    have hstep : (pulls (n + 1) s).1 = none :: (pulls n s).1 := by
      simp [pulls, h]
    rw [hstep, ih s h, List.replicate_succ]

/-- States reachable through the public interface: construction, `push`
and calls to `next`. -/
inductive Reachable : MultiIter α → Prop
  | new (ls : List (List α)) : Reachable (MultiIter.new ls)
  | push (s : MultiIter α) (l : List α) : Reachable s → Reachable (s.push l)
  | step (s : MultiIter α) : Reachable s → Reachable (MultiIter.next s).2

/-- Between calls, a set flag always comes with a reset cursor. -/
theorem next_empty_index (s : MultiIter α) :
    (MultiIter.next s).2.empty = true → (MultiIter.next s).2.index = 0 := by
  intro he
  cases hr : (MultiIter.next s).1 with
  | none =>
    rw [nextAux_none_state _ s (MultiIter.next s) (nextAux_next s) hr]
  | some v =>
    rw [nextAux_some_empty _ s (MultiIter.next s) (nextAux_next s) v hr] at he
    exact Bool.noConfusion he

theorem reachable_empty_index {s : MultiIter α} (hs : Reachable s) :
    s.empty = true → s.index = 0 := by
  induction hs with
  | new ls => intro h; exact Bool.noConfusion h
  | push s l _ ih => exact ih
  | step s _ _ => exact next_empty_index s

/-- On reachable states, a `none` answer really means every producer is
exhausted. -/
theorem reachable_none_all_empty {s : MultiIter α} (hs : Reachable s)
    (h : (MultiIter.next s).1 = none) : ∀ l ∈ s.items, l = [] := by
  have haux : nextAux (2 * (s.items.length + 1)) s = some (none, (MultiIter.next s).2) := by
    rw [nextAux_next s, ← h]
  obtain ⟨h1, h2⟩ := nextAux_none_char _ s (MultiIter.next s).2 haux
  rcases h2 with h2 | h2
  · have hidx : s.index = 0 := reachable_empty_index hs h2
    rw [hidx, List.drop_zero] at h1
    exact h1
  · exact h2

theorem pulls_nil_all_none :
    ∀ (k : Nat) (e : Bool), (pulls k (⟨e, 0, []⟩ : MultiIter α)).1 = List.replicate k none := by
  have hT : MultiIter.next (⟨true, 0, []⟩ : MultiIter α) = (none, ⟨true, 0, []⟩) :=
    next_all_empty_t 0 0 [] (by intro l hl; simp at hl) (by simp)
  have hF : MultiIter.next (⟨false, 0, []⟩ : MultiIter α) = (none, ⟨true, 0, []⟩) :=
    next_all_empty_f 0 0 [] (by intro l hl; simp at hl) (by simp)
  intro k
  induction k with
  | zero => intro e; rfl
  | succ n ih =>
    intro e
    cases e with
    | true =>
      have hstep : (pulls (n + 1) (⟨true, 0, []⟩ : MultiIter α)).1
          = none :: (pulls n (⟨true, 0, []⟩ : MultiIter α)).1 := by
        simp [pulls, hT]
      rw [hstep, ih true, List.replicate_succ]
    | false =>
      have hstep : (pulls (n + 1) (⟨false, 0, []⟩ : MultiIter α)).1
          = none :: (pulls n (⟨true, 0, []⟩ : MultiIter α)).1 := by
        simp [pulls, hF]
      rw [hstep, ih true, List.replicate_succ]

/-- Claim C2: `pull_next` returns `None` exactly when `round_empty` survives to
the wrap: the rest of the current pass meets only exhausted producers, and
either the flag is already set from the previous fruitless pass, or the
fresh full pass that follows the wrap also yields nothing (every producer
exhausted). -/
theorem pull_next_none_iff (s : MultiIter α) :
    (MultiIter.next s).1 = none ↔
      (∀ l ∈ s.items.drop s.index, l = []) ∧
        (s.empty = true ∨ ∀ l ∈ s.items, l = []) := by
  constructor
  · intro h
    have haux : nextAux (2 * (s.items.length + 1)) s
        = some (none, (MultiIter.next s).2) := by
      rw [nextAux_next s, ← h]
    exact nextAux_none_char _ s _ haux
  · obtain ⟨e, i, items⟩ := s
    rintro ⟨h1, h2 | h2⟩
    · cases e with
      | false => exact Bool.noConfusion h2
      | true =>
        rw [next_all_empty_t items.length i items h1 (by omega)]
    · cases e with
      | true =>
        rw [next_all_empty_t items.length i items
          (fun l hl => h2 l (List.mem_of_mem_drop hl)) (by omega)]
      | false =>
        rw [next_all_empty_f items.length i items h2 (by omega)]

/-- Claim C6: a merger over zero producers — built by `new []` or by `default` —
answers `None` on the very first call and on every call after it. -/
theorem empty_collection_all_none (α : Type u) (k : Nat) :
    (pulls k (MultiIter.new ([] : List (List α)))).1 = List.replicate k none ∧
      (pulls k (MultiIter.default : MultiIter α)).1 = List.replicate k none :=
  ⟨pulls_nil_all_none k false, pulls_nil_all_none k false⟩

/-- Claim C7: once a call on a reachable state answers `None`, every later call
answers `None` as well, as long as no producer is pushed in between. -/
theorem idempotent_termination (s : MultiIter α) (hs : Reachable s)
    (h : (MultiIter.next s).1 = none) (k : Nat) :
    (pulls k (MultiIter.next s).2).1 = List.replicate k none := by
  have hall : ∀ l ∈ s.items, l = [] := reachable_none_all_empty hs h
  have hstate : (MultiIter.next s).2 = ⟨true, 0, s.items⟩ :=
    nextAux_none_state _ s (MultiIter.next s) (nextAux_next s) h
  have hfix : MultiIter.next (⟨true, 0, s.items⟩ : MultiIter α)
      = (none, ⟨true, 0, s.items⟩) :=
    next_all_empty_t s.items.length 0 s.items
      (fun l hl => hall l (List.mem_of_mem_drop hl)) (by omega)
  rw [hstate]
  exact pulls_fixed k _ hfix

/-- Witness for C7 at a concrete input: a merger over one already-empty
producer signals `None`, and the three calls after it all signal `None`. -/
theorem idempotent_termination_witness :
    (pulls 3 (MultiIter.next (MultiIter.new [([] : List Nat)])).2).1
      = List.replicate 3 none :=
  idempotent_termination (MultiIter.new [([] : List Nat)])
    (Reachable.new _) (by decide) 3

/-- Claim C8: after a `None` answer on a reachable state, pushing a producer that
still holds a value and calling again yields that producer's first value:
the terminal signal is not permanent once a producer is appended. -/
theorem append_after_end_resumes (s : MultiIter α) (hs : Reachable s)
    (h : (MultiIter.next s).1 = none) (v : α) (vs : List α) :
    (MultiIter.next ((MultiIter.next s).2.push (v :: vs))).1 = some v := by
  have hall : ∀ l ∈ s.items, l = [] := reachable_none_all_empty hs h
  have hstate : (MultiIter.next s).2 = ⟨true, 0, s.items⟩ :=
    nextAux_none_state _ s (MultiIter.next s) (nextAux_next s) h
  have hpush : (MultiIter.next s).2.push (v :: vs)
      = ⟨true, 0, s.items ++ [v :: vs]⟩ := by
    rw [hstate]; rfl
  rw [hpush]
  exact next_over_empties_concat s.items.length s.items true 0 v vs hall
    (by omega) (by omega)

/-- Witness for C8 at a concrete input: after the merger over one empty
producer signals `None`, pushing the producer `[7]` and pulling again
yields `7`. -/
theorem append_after_end_resumes_witness :
    (MultiIter.next ((MultiIter.next (MultiIter.new [([] : List Nat)])).2.push
      (7 :: []))).1 = some 7 :=
  append_after_end_resumes (MultiIter.new [([] : List Nat)])
    (Reachable.new _) (by decide) 7 []

/-- Claim C9: on every state reachable through `new`, `default`, `push` and
`next`, the cursor is at most the number of producers (a valid index or
the wrap position, which `next` resets before pulling anyone). -/
theorem cursor_always_valid (s : MultiIter α) (hs : Reachable s) :
    s.index ≤ s.items.length := by
  induction hs with
  | new ls => exact Nat.zero_le _
  | push s l _ ih =>
    simp only [MultiIter.push, List.length_append, List.length_cons,
      List.length_nil]
    omega
  | step s _ _ => exact nextAux_index_le _ s (MultiIter.next s) (nextAux_next s)

/-- Witness for C9 at a concrete input: the freshly built merger over one
producer has its cursor within bounds. -/
theorem cursor_always_valid_witness :
    (MultiIter.new [[(0 : Nat)]]).index ≤ (MultiIter.new [[(0 : Nat)]]).items.length :=
  cursor_always_valid (MultiIter.new [[(0 : Nat)]]) (Reachable.new _)

/-- Claim C10: the retry loop inside `next` always returns within
`2 * (N + 1)` iterations, where `N` is the number of producers: with that
much fuel, `nextAux` never runs dry. -/
theorem next_loop_terminates (s : MultiIter α) :
    (nextAux (2 * (s.items.length + 1)) s).isSome = true :=
  nextAux_isSome s

/-- The sequence `a0, b0, a1, b1, ...` for two equal-length producers. -/
def interleavePairs (as bs : List α) : List α :=
  (as.zip bs).flatMap fun p => [p.1, p.2]

theorem interleavePairs_cons (a : α) (as : List α) (b : α) (bs : List α) :
    interleavePairs (a :: as) (b :: bs) = a :: b :: interleavePairs as bs := by
  simp [interleavePairs]

theorem pulls_succ (k : Nat) (s : MultiIter α) :
    pulls (k + 1) s
      = ((MultiIter.next s).1 :: (pulls k (MultiIter.next s).2).1,
          (pulls k (MultiIter.next s).2).2) := rfl

theorem next_two_wrap_yield (a : α) (as bs : List α) :
    MultiIter.next ⟨false, 2, [a :: as, bs]⟩ = (some a, ⟨false, 1, [as, bs]⟩) := by
  rw [next_wrap ⟨false, 2, [a :: as, bs]⟩ rfl rfl,
    next_yield ⟨true, 0, [a :: as, bs]⟩ a as rfl]
  rfl

theorem next_two_snd_yield (as : List α) (b : α) (bs : List α) :
    MultiIter.next ⟨false, 1, [as, b :: bs]⟩ = (some b, ⟨false, 2, [as, bs]⟩) := by
  rw [next_yield ⟨false, 1, [as, b :: bs]⟩ b bs rfl]
  rfl

theorem next_two_fst_yield (a : α) (as bs : List α) :
    MultiIter.next ⟨false, 0, [a :: as, bs]⟩ = (some a, ⟨false, 1, [as, bs]⟩) := by
  rw [next_yield ⟨false, 0, [a :: as, bs]⟩ a as rfl]
  rfl

theorem next_two_end :
    MultiIter.next (⟨false, 2, [[], []]⟩ : MultiIter α) = (none, ⟨true, 0, [[], []]⟩) :=
  next_all_empty_f 0 2 [[], []]
    (by intro l hl; rcases List.mem_cons.mp hl with h | h
        · exact h
        · rcases List.mem_cons.mp h with h | h
          · exact h
          · simp at h)
    (by simp)

theorem pulls_round_two :
    ∀ (n : Nat) (as bs : List α), as.length = n → bs.length = n →
      (pulls (2 * n + 1) (⟨false, 2, [as, bs]⟩ : MultiIter α)).1
        = (interleavePairs as bs).map some ++ [none] := by
  intro n
  induction n with
  | zero =>
    intro as bs ha hb
    obtain rfl : as = [] := List.length_eq_zero.mp ha
    obtain rfl : bs = [] := List.length_eq_zero.mp hb
    simp [pulls_succ, pulls, next_two_end, interleavePairs]
  | succ n ih =>
    intro as bs ha hb
    cases as with
    | nil => simp at ha
    | cons a as' =>
      cases bs with
      | nil => simp at hb
      | cons b bs' =>
        have key : (pulls (2 * n + 1 + 1 + 1) (⟨false, 2, [a :: as', b :: bs']⟩ : MultiIter α)).1
            = some a :: some b :: (pulls (2 * n + 1) (⟨false, 2, [as', bs']⟩ : MultiIter α)).1 := by
          simp [pulls_succ, next_two_wrap_yield, next_two_snd_yield]
        rw [show 2 * (n + 1) + 1 = 2 * n + 1 + 1 + 1 by ring, key,
          ih as' bs' (by simpa using ha) (by simpa using hb),
          interleavePairs_cons]
        simp

/-- Claim C3: for two producers of the same length `n`, the merger yields
`a0, b0, a1, b1, ..., a(n-1), b(n-1)` over the first `2n` calls and
signals `None` on call `2n + 1`. -/
theorem round_robin_equal_length (as bs : List α) (n : Nat)
    (ha : as.length = n) (hb : bs.length = n) :
    (pulls (2 * n + 1) (MultiIter.new [as, bs])).1
      = (interleavePairs as bs).map some ++ [none] := by
  cases n with
  | zero =>
    obtain rfl : as = [] := List.length_eq_zero.mp ha
    obtain rfl : bs = [] := List.length_eq_zero.mp hb
    have hend : MultiIter.next (MultiIter.new ([[], []] : List (List α)))
        = (none, ⟨true, 0, [[], []]⟩) :=
      next_all_empty_f 2 0 [[], []]
        (by intro l hl; rcases List.mem_cons.mp hl with h | h
            · exact h
            · rcases List.mem_cons.mp h with h | h
              · exact h
              · simp at h)
        (by simp)
    simp [pulls_succ, pulls, hend, interleavePairs]
  | succ n =>
    cases as with
    | nil => simp at ha
    | cons a as' =>
      cases bs with
      | nil => simp at hb
      | cons b bs' =>
        have key : (pulls (2 * n + 1 + 1 + 1) (MultiIter.new [a :: as', b :: bs'])).1
            = some a :: some b :: (pulls (2 * n + 1) (⟨false, 2, [as', bs']⟩ : MultiIter α)).1 := by
          have h0 : MultiIter.next (MultiIter.new [a :: as', b :: bs'])
              = (some a, ⟨false, 1, [as', b :: bs']⟩) :=
            next_two_fst_yield a as' (b :: bs')
          simp [pulls_succ, h0, next_two_snd_yield]
        rw [show 2 * (n + 1) + 1 = 2 * n + 1 + 1 + 1 by ring, key,
          pulls_round_two n as' bs' (by simpa using ha) (by simpa using hb),
          interleavePairs_cons]
        simp

/-- Witness for C3 at the spec's scenario: producers `0..3, 0..3` give
`0, 0, 1, 1, 2, 2` and then `None`. -/
theorem round_robin_equal_length_witness :
    ([0, 1, 2] : List Nat).length = 3 ∧
      (pulls (2 * 3 + 1) (MultiIter.new [[0, 1, 2], [0, 1, 2]])).1
        = (interleavePairs [0, 1, 2] [0, 1, 2]).map some ++ [none] :=
  ⟨rfl, round_robin_equal_length [0, 1, 2] [0, 1, 2] 3 rfl rfl⟩

/-- The merged sequence the spec expects for producers of lengths
10, 5, 2, 7 whose values count up from 0. -/
def unevenExpected : List Nat :=
  [0, 0, 0, 0, 1, 1, 1, 1, 2, 2, 2, 3, 3, 3, 4, 4, 4, 5, 5, 6, 6, 7, 8, 9]

/-- Claim C4: for the four producers `0..10`, `0..5`, `0..2`, `0..7`, supplied in
any order, the 24 values come out as
`0,0,0,0, 1,1,1,1, 2,2,2, 3,3,3, 4,4,4, 5,5, 6,6, 7, 8, 9` and the 25th
call signals `None`. -/
theorem uneven_lengths_any_order (ls : List (List Nat))
    (h : ls.Perm [List.range 10, List.range 5, List.range 2, List.range 7]) :
    (pulls 25 (MultiIter.new ls)).1 = unevenExpected.map some ++ [none] := by
  have hall : ∀ l ∈ ([List.range 10, List.range 5, List.range 2,
      List.range 7] : List (List Nat)).permutations',
      (pulls 25 (MultiIter.new l)).1 = unevenExpected.map some ++ [none] := by
    decide
  exact hall ls (List.mem_permutations'.mpr h)

/-- Witness for C4 at the construction order of the spec's test. -/
theorem uneven_lengths_any_order_witness :
    (pulls 25 (MultiIter.new [List.range 10, List.range 5, List.range 2,
      List.range 7])).1 = unevenExpected.map some ++ [none] :=
  uneven_lengths_any_order _ (List.Perm.refl _)

/-! An instrumented copy of the iterator that additionally counts, for
each producer, how many times it has been pulled (`iterator.next()`
called on it), including pulls answered by exhaustion.  The algorithm is
the same as `nextAux`; `nextAuxC_toPlain` proves it. -/

/-- Iterator state extended with the ghost per-producer pull counters. -/
structure MultiIterC (α : Type u) where
  empty : Bool
  index : Nat
  items : List (List α)
  pullsc : List Nat
deriving DecidableEq

/-- Forget the ghost counters. -/
def MultiIterC.toPlain (s : MultiIterC α) : MultiIter α :=
  ⟨s.empty, s.index, s.items⟩

/-- Increment the counter at position `i`. -/
def bump (cs : List Nat) (i : Nat) : List Nat :=
  cs.set i (cs[i]?.getD 0 + 1)

/-- The loop of `next`, instrumented: both the yield branch and the skip
branch pull the producer under the cursor once, so both bump its counter. -/
def nextAuxC : Nat → MultiIterC α → Option (Option α × MultiIterC α)
  | 0, _ => none
  | fuel + 1, s =>
    match s.items[s.index]? with
    | some (v :: rest) =>
      some (some v, ⟨false, s.index + 1, s.items.set s.index rest, bump s.pullsc s.index⟩)
    | some [] => nextAuxC fuel ⟨s.empty, s.index + 1, s.items, bump s.pullsc s.index⟩
    | none =>
      if s.empty then
        some (none, ⟨s.empty, 0, s.items, s.pullsc⟩)
      else
        nextAuxC fuel ⟨true, 0, s.items, s.pullsc⟩

theorem nextAuxC_toPlain :
    ∀ (fuel : Nat) (s : MultiIterC α),
      (nextAuxC fuel s).map (fun r => (r.1, r.2.toPlain)) = nextAux fuel s.toPlain := by
  intro fuel
  induction fuel with
  | zero => intro s; rfl
  | succ n ih =>
    rintro ⟨e, i, items, c⟩
    rw [nextAuxC, nextAux]
    simp only [MultiIterC.toPlain]
    cases hg : items[i]? with
    | some l =>
      cases l with
      | nil =>
        simp only [hg]
        exact ih ⟨e, i + 1, items, bump c i⟩
      | cons v rest => simp [hg, MultiIterC.toPlain]
    | none =>
      simp only [hg]
      cases e with
      | true => simp [MultiIterC.toPlain]
      | false =>
        simp only [Bool.false_eq_true, if_false]
        exact ih ⟨true, 0, items, c⟩

theorem nextAuxC_isSome (s : MultiIterC α) :
    (nextAuxC (2 * (s.items.length + 1)) s).isSome := by
  have h := nextAuxC_toPlain (2 * (s.items.length + 1)) s
  have h2 : (nextAux (2 * (s.items.length + 1)) s.toPlain).isSome :=
    nextAux_isSome s.toPlain
  rw [← h] at h2
  simpa using h2

/-- The instrumented call. -/
def MultiIterC.next (s : MultiIterC α) : Option α × MultiIterC α :=
  (nextAuxC (2 * (s.items.length + 1)) s).get (nextAuxC_isSome s)

/-- Outputs and final state of `k` instrumented calls. -/
def pullsC : Nat → MultiIterC α → List (Option α) × MultiIterC α
  | 0, s => ([], s)
  | k + 1, s =>
    let r := MultiIterC.next s
    let rest := pullsC k r.2
    (r.1 :: rest.1, rest.2)

/-- Instrumented construction: all counters start at zero. -/
def MultiIterC.new (ls : List (List α)) : MultiIterC α :=
  ⟨false, 0, ls, List.replicate ls.length 0⟩

theorem nextAuxC_next (s : MultiIterC α) :
    nextAuxC (2 * (s.items.length + 1)) s = some (MultiIterC.next s) :=
  (Option.some_get (nextAuxC_isSome s)).symm

/-- The invariant tying counters to the cursor: every producer before the
cursor has been pulled once more than every producer at or past it. -/
def CInv (s : MultiIterC α) : Prop :=
  s.index ≤ s.items.length ∧ s.pullsc.length = s.items.length ∧
    ∃ r, ∀ i, i < s.items.length →
      s.pullsc[i]? = some (r + if i < s.index then 1 else 0)

theorem bump_counts (cs : List Nat) (n i r : Nat)
    (hlen : cs.length = n) (hi : i < n)
    (hc : ∀ j, j < n → cs[j]? = some (r + if j < i then 1 else 0)) :
    ∀ j, j < n → (bump cs i)[j]? = some (r + if j < i + 1 then 1 else 0) := by
  intro j hj
  by_cases hji : j = i
  · subst hji
    have hcj := hc j hj
    have hjlt : j < cs.length := by omega
    unfold bump
    rw [List.getElem?_set_self hjlt, hcj]
    simp
  · unfold bump
    rw [List.getElem?_set_ne (fun h => hji h.symm), hc j hj]
    by_cases hlt : j < i
    · rw [if_pos hlt, if_pos (by omega)]
    · rw [if_neg hlt, if_neg (by omega)]

theorem nextAuxC_inv :
    ∀ (fuel : Nat) (s : MultiIterC α) (r : Option α × MultiIterC α),
      nextAuxC fuel s = some r → CInv s → CInv r.2 := by
  intro fuel
  induction fuel with
  | zero => intro s r h; exact Option.noConfusion h
  | succ n ih =>
    rintro ⟨e, i, items, cs⟩ r h ⟨hidx, hlen, rc, hc⟩
    rw [nextAuxC] at h
    cases hg : items[i]? with
    | some l =>
      have hi : i < items.length := by
        by_contra hcon
        rw [List.getElem?_eq_none (by omega)] at hg
        exact Option.noConfusion hg
      cases l with
      | nil =>
        simp only [hg] at h
        refine ih ⟨e, i + 1, items, bump cs i⟩ r h ?_
        exact ⟨by simpa using hi, by simpa [bump] using hlen,
          rc, bump_counts cs items.length i rc hlen hi hc⟩
      | cons v rest =>
        simp only [hg] at h
        rw [← Option.some_inj.mp h]
        refine ⟨by simpa using hi, by simpa [bump] using hlen, rc, ?_⟩
        have := bump_counts cs items.length i rc hlen hi hc
        simpa using this
    | none =>
      have hidx' : i ≤ items.length := hidx
      have hc' : ∀ j, j < items.length →
          cs[j]? = some (rc + if j < i then 1 else 0) := hc
      have hilen : i = items.length := by
        have : items.length ≤ i := by
          by_contra hcon
          rw [List.getElem?_eq_getElem (by omega)] at hg
          exact Option.noConfusion hg
        omega
      have hall : ∀ j, j < items.length → cs[j]? = some (rc + 1) := by
        intro j hj
        have := hc' j hj
        rw [if_pos (by omega)] at this
        exact this
      have hnew : CInv (⟨true, 0, items, cs⟩ : MultiIterC α) := by
        refine ⟨Nat.zero_le _, hlen, rc + 1, ?_⟩
        intro j hj
        rw [hall j hj]
        simp
      simp only [hg] at h
      cases e with
      | true =>
        simp only [if_true] at h
        rw [← Option.some_inj.mp h]
        exact ⟨Nat.zero_le _, hlen, rc + 1, fun j hj => by rw [hall j hj]; simp⟩
      | false =>
        simp only [Bool.false_eq_true, if_false] at h
        exact ih ⟨true, 0, items, cs⟩ r h hnew

theorem nextC_inv (s : MultiIterC α) (h : CInv s) : CInv (MultiIterC.next s).2 :=
  nextAuxC_inv _ s (MultiIterC.next s) (nextAuxC_next s) h

theorem pullsC_inv :
    ∀ (k : Nat) (s : MultiIterC α), CInv s → CInv (pullsC k s).2 := by
  intro k
  induction k with
  | zero => intro s h; exact h
  | succ n ih =>
    intro s h
    exact ih (MultiIterC.next s).2 (nextC_inv s h)

theorem newC_inv (ls : List (List α)) : CInv (MultiIterC.new ls) := by
  refine ⟨Nat.zero_le _, by simp [MultiIterC.new], 0, ?_⟩
  intro i hi
  have hi' : i < ls.length := by simpa [MultiIterC.new] using hi
  simp only [MultiIterC.new]
  rw [List.getElem?_replicate_of_lt hi']
  simp

/-- Claim C1, amended: after any number of calls on a merger built by `new`,
the numbers of pulls performed on any two producers — counting pulls
answered by exhaustion — differ by at most 1. -/
theorem pull_count_drift_le_one (ls : List (List α)) (k : Nat) (i j ci cj : Nat)
    (hi : (pullsC k (MultiIterC.new ls)).2.pullsc[i]? = some ci)
    (hj : (pullsC k (MultiIterC.new ls)).2.pullsc[j]? = some cj) :
    ci ≤ cj + 1 ∧ cj ≤ ci + 1 := by
  obtain ⟨hidx, hlen, r, hcounts⟩ := pullsC_inv k _ (newC_inv ls)
  have hi' : i < (pullsC k (MultiIterC.new ls)).2.pullsc.length :=
    (List.getElem?_eq_some_iff.mp hi).1
  have hj' : j < (pullsC k (MultiIterC.new ls)).2.pullsc.length :=
    (List.getElem?_eq_some_iff.mp hj).1
  rw [hcounts i (by omega)] at hi
  rw [hcounts j (by omega)] at hj
  have hci := Option.some_inj.mp hi
  have hcj := Option.some_inj.mp hj
  by_cases h1 : i < (pullsC k (MultiIterC.new ls)).2.index <;>
    by_cases h2 : j < (pullsC k (MultiIterC.new ls)).2.index <;>
      simp [h1, h2] at hci hcj <;> omega

/-- Witness for C1 (amended): after one call on producers `[[4], [5]]`,
producer 0 has been pulled once and the bound holds with those counts. -/
theorem pull_count_drift_le_one_witness :
    (pullsC 1 (MultiIterC.new [[(4 : Nat)], [5]])).2.pullsc[0]? = some 1 ∧
      ((1 : Nat) ≤ 0 + 1 ∧ (0 : Nat) ≤ 1 + 1) :=
  ⟨by decide, pull_count_drift_le_one [[(4 : Nat)], [5]] 1 0 1 1 0 (by decide) (by decide)⟩

/-- Elements consumed from producer `i` since construction. -/
def consumedFrom (init : List (List α)) (s : MultiIter α) (i : Nat) : Nat :=
  (init[i]?.getD []).length - (s.items[i]?.getD []).length

/-- Counterexample to C1 as stated: with producers `[[], [5, 6, 7]]`,
after 2 calls the merger has consumed 2 elements from producer 1 and 0
from the exhausted producer 0 — the consumed-element counts differ by
more than 1. -/
theorem consumed_drift_cex :
    ¬ (consumedFrom [[], [5, 6, 7]]
        (pulls 2 (MultiIter.new [([] : List Nat), [5, 6, 7]])).2 1
      ≤ consumedFrom [[], [5, 6, 7]]
        (pulls 2 (MultiIter.new [([] : List Nat), [5, 6, 7]])).2 0 + 1) := by
  decide

/-- Counterexample to C5 as stated: the first call on producers
`[[], [5]]` pulls producer 0 (exhausted) and then producer 1, so it
performs two pulls on two producers, not exactly one pull on one. -/
theorem single_pull_cex :
    (pullsC 1 (MultiIterC.new [([] : List Nat), [5]])).2.pullsc = [1, 1] ∧
      ¬ ((pullsC 1 (MultiIterC.new [([] : List Nat), [5]])).2.pullsc.sum = 1) := by
  decide

/-- Claim C5, amended: a call that returns a value consumes exactly one
element, the head of the producer it stopped at; a call that returns
`None` consumes nothing.  (Exhausted producers may additionally be
pulled — fruitlessly — during the same call.) -/
theorem next_consumes_at_most_one (s : MultiIter α) :
    (∀ v s', MultiIter.next s = (some v, s') →
      ∃ i rest, s.items[i]? = some (v :: rest) ∧ s'.items = s.items.set i rest) ∧
      ((MultiIter.next s).1 = none → (MultiIter.next s).2.items = s.items) := by
  constructor
  · intro v s' h
    have hx := nextAux_some_consumes _ s (MultiIter.next s) (nextAux_next s) v
      (by rw [h])
    rw [h] at hx
    exact hx
  · intro h
    rw [nextAux_none_state _ s (MultiIter.next s) (nextAux_next s) h]

/-- Witness for C5 (amended) at a concrete input: the first call on
`[[3]]` consumes exactly the head of producer 0. -/
theorem next_consumes_at_most_one_witness :
    ∃ i rest, ([[(3 : Nat)]] : List (List Nat))[i]? = some (3 :: rest) ∧
      (MultiIter.next (MultiIter.new [[(3 : Nat)]])).2.items = [[(3 : Nat)]].set i rest :=
  (next_consumes_at_most_one (MultiIter.new [[(3 : Nat)]])).1 3
    (MultiIter.next (MultiIter.new [[(3 : Nat)]])).2 (by decide)

end Interleave
